import Mathlib

/-!
Verification of the sharded measurement scheduler of the ezexl3 repository
(`ezexl3/repo.py` and `ezexl3/measure.py`).

The development shallowly embeds the core of the scheduler:

* the shard-merge algorithm `_merge_csvs` together with its sort key
  `_bpw_sort_key` (repo.py, lines 20-51), including the `csv.DictWriter`
  discipline it uses to write the canonical table;
* the per-label measurement body of `run_measure` and the durable append
  `append_csv_row` (measure.py), with the external measurement collaborators
  (`run_model_diff`, `run_ppl_layer`) and the filesystem abstracted as oracles;
* the worker loop `_worker_measure` and the task-queue / sentinel protocol of
  `run_measure_stage` (repo.py).

Machine floats of the source are modelled as exact decimals (an integer
mantissa with a power-of-ten denominator); the labels this system sorts are
short decimal strings, far below the granularity at which binary rounding
could reorder them.
-/

deriving instance DecidableEq for Except

/-! ### Python string and float primitives -/

/-- Whitespace characters stripped by the Python `str.strip()` method
(the ASCII fragment; labels in this system never contain whitespace). -/
def isPyWs (c : Char) : Bool :=
  c = ' ' || c = '\t' || c = '\n' || c = '\r' || c.toNat = 11 || c.toNat = 12

/-- Embedding of Python `s.strip()`: remove leading and trailing whitespace. -/
def pyStrip (s : String) : String :=
  ⟨((s.data.dropWhile isPyWs).reverse.dropWhile isPyWs).reverse⟩

/-- Embedding of Python `os.path.join(a, b)`: an absolute second component
replaces the first, otherwise the parts are joined with a single slash. -/
def pyJoin (a b : String) : String :=
  if b.data.head? = some '/' then b
  else if a = "" || a.data.getLast? = some '/' then a ++ b
  else a ++ "/" ++ b

/-- Numeric value of a list of decimal digit characters. -/
def digitsToNat (cs : List Char) : Nat :=
  cs.foldl (fun n c => n * 10 + (c.toNat - 48)) 0

/-- Split an optional leading sign; returns (negative, remainder). -/
def splitSign : List Char → Bool × List Char
  | '-' :: cs => (true, cs)
  | '+' :: cs => (false, cs)
  | cs => (false, cs)

/-- Exact decimal: the pair (m, e) denotes the value m / 10 ^ e. -/
abbrev Dec := Int × Nat

/-- Combine a mantissa, a count of fractional digits and a decimal exponent
into an exact decimal (value = mant / 10 ^ fracLen * 10 ^ exp). -/
def scaleDec (mant : Int) (fracLen : Nat) (exp : Int) : Dec :=
  let d : Int := exp - (fracLen : Int)
  if 0 ≤ d then (mant * (10 : Int) ^ d.toNat, 0) else (mant, (-d).toNat)

/-- Embedding of Python `float(w)` on the decimal-literal fragment: optional
surrounding whitespace, optional sign, digits with an optional fractional part,
and an optional decimal exponent.  Returns the value as an exact decimal, or
`none` when `float` would raise `ValueError`.  (Python additionally accepts
`inf`, `nan` and digit-group underscores; the bits-per-weight labels this
program sorts never use those forms.) -/
def pyFloat? (s : String) : Option Dec :=
  let cs := (pyStrip s).data
  let sn := splitSign cs
  let intPart := sn.2.takeWhile Char.isDigit
  let rest := sn.2.dropWhile Char.isDigit
  let fracSplit : List Char × List Char :=
    match rest with
    | '.' :: cs2 => (cs2.takeWhile Char.isDigit, cs2.dropWhile Char.isDigit)
    | _ => ([], rest)
  let fracPart := fracSplit.1
  let rest2 := fracSplit.2
  if intPart.isEmpty && fracPart.isEmpty then none
  else
    let mant : Int := (if sn.1 then -1 else 1) * (digitsToNat (intPart ++ fracPart) : Int)
    match rest2 with
    | [] => some (scaleDec mant fracPart.length 0)
    | e :: cs3 =>
      if e = 'e' || e = 'E' then
        let esn := splitSign cs3
        if !esn.2.isEmpty && esn.2.all Char.isDigit then
          let ev : Int := (if esn.1 then -1 else 1) * (digitsToNat esn.2 : Int)
          some (scaleDec mant fracPart.length ev)
        else none
      else none

/-- Rational value denoted by an exact decimal (specification-level bridge;
never evaluated by the kernel). -/
def decVal (d : Dec) : Rat := (d.1 : Rat) / (10 : Rat) ^ d.2

/-- Strict value order on exact decimals, by cross multiplication. -/
def decLt (a b : Dec) : Prop := a.1 * (10 : Int) ^ b.2 < b.1 * (10 : Int) ^ a.2

/-- Value equality on exact decimals, by cross multiplication. -/
def decEqv (a b : Dec) : Prop := a.1 * (10 : Int) ^ b.2 = b.1 * (10 : Int) ^ a.2

instance : DecidableRel decLt := fun a b => inferInstanceAs (Decidable (_ < _))

instance (a b : Dec) : Decidable (decEqv a b) := inferInstanceAs (Decidable (_ = _))

lemma pow10_pos (n : Nat) : (0 : Rat) < (10 : Rat) ^ n := by positivity

lemma decLt_iff (a b : Dec) : decLt a b ↔ decVal a < decVal b := by
  unfold decLt decVal
  rw [div_lt_div_iff (pow10_pos a.2) (pow10_pos b.2)]
  constructor
  · intro h; exact_mod_cast h
  · intro h; exact_mod_cast h

lemma decEqv_iff (a b : Dec) : decEqv a b ↔ decVal a = decVal b := by
  unfold decEqv decVal
  rw [div_eq_div_iff (ne_of_gt (pow10_pos a.2)) (ne_of_gt (pow10_pos b.2))]
  constructor
  · intro h; exact_mod_cast h
  · intro h; exact_mod_cast h

/-! ### The merge layer: `_merge_csvs` and `_bpw_sort_key` (repo.py) -/

/-- A row of a shard ledger file, as `csv.DictReader` yields it: an
association list from the fields of the file header to cell values. -/
abbrev Row := List (String × String)

/-- Embedding of `row.get(f) or ""` followed by nothing (raw cell access with
default). -/
def getField (r : Row) (f : String) : String := (r.lookup f).getD ""

/-- Embedding of `(row.get("weights") or "").strip()` from `_merge_csvs`. -/
def rowLabel (r : Row) : String := pyStrip (getField r "weights")

/-- The fixed ledger schema `CSV_FIELDS` of measure.py (line 71). -/
def CSV_FIELDS : List String := ["weights", "PPL r-10", "K/L Div", "PPL r-100", "GiB"]

/-- The column list `_merge_csvs` passes to `csv.DictWriter` (repo.py line 46). -/
def mergeFieldnames : List String := ["weights", "K/L Div", "PPL r-100", "GiB"]

/-- Embedding of `_bpw_sort_key` (repo.py lines 20-26): `"bf16"` maps to the
key (-1.0, w); a label accepted by `float` maps to (float(w), w); any other
label maps to (1e9, w). -/
def bpwSortKey (w : String) : Dec × String :=
  if w = "bf16" then ((-1, 0), w)
  else
    match pyFloat? w with
    | some d => (d, w)
    | none => (((10 : Int) ^ 9, 0), w)

/-- Order in which Python `sorted` ranks the tuples produced by
`_bpw_sort_key`: lexicographic on (float value, label string). -/
def bpwLe (a b : String) : Prop :=
  decLt (bpwSortKey a).1 (bpwSortKey b).1 ∨
    (decEqv (bpwSortKey a).1 (bpwSortKey b).1 ∧ (bpwSortKey a).2 ≤ (bpwSortKey b).2)

instance : DecidableRel bpwLe := fun a b => inferInstanceAs (Decidable (_ ∨ _))

/-- Rational value of the first component of the sort key. -/
def bpwVal (w : String) : Rat := decVal (bpwSortKey w).1

lemma bpwLe_iff (a b : String) :
    bpwLe a b ↔ bpwVal a < bpwVal b ∨ (bpwVal a = bpwVal b ∧ a ≤ b) := by
  unfold bpwLe bpwVal
  rw [decLt_iff, decEqv_iff]
  have key2 : ∀ w : String, (bpwSortKey w).2 = w := by
    intro w
    unfold bpwSortKey
    split
    · rfl
    · cases pyFloat? w <;> rfl
  rw [key2 a, key2 b]

instance : IsTrans String bpwLe := by
  constructor
  intro a b c hab hbc
  rw [bpwLe_iff] at *
  rcases hab with h1 | ⟨h1, h1s⟩ <;> rcases hbc with h2 | ⟨h2, h2s⟩
  · exact Or.inl (lt_trans h1 h2)
  · exact Or.inl (lt_of_lt_of_eq h1 h2)
  · exact Or.inl (lt_of_eq_of_lt h1 h2)
  · exact Or.inr ⟨h1.trans h2, le_trans h1s h2s⟩

instance : IsTotal String bpwLe := by
  constructor
  intro a b
  rcases lt_trichotomy (bpwVal a) (bpwVal b) with h | h | h
  · exact Or.inl ((bpwLe_iff a b).2 (Or.inl h))
  · rcases le_total a b with hs | hs
    · exact Or.inl ((bpwLe_iff a b).2 (Or.inr ⟨h, hs⟩))
    · exact Or.inr ((bpwLe_iff b a).2 (Or.inr ⟨h.symm, hs⟩))
  · exact Or.inr ((bpwLe_iff b a).2 (Or.inl h))

instance : IsAntisymm String bpwLe := by
  constructor
  intro a b hab hba
  rw [bpwLe_iff] at hab hba
  rcases hab with h1 | ⟨h1, h1s⟩ <;> rcases hba with h2 | ⟨h2, h2s⟩
  · exact absurd (lt_trans h1 h2) (lt_irrefl _)
  · exact absurd h1 (by rw [h2]; exact lt_irrefl _)
  · exact absurd h2 (by rw [h1]; exact lt_irrefl _)
  · exact le_antisymm h1s h2s

/-- Embedding of the first loop of `_merge_csvs` on one row: skip empty
labels, keep the first occurrence of each label (`if w not in rows`). -/
def insertRow (acc : List (String × Row)) (r : Row) : List (String × Row) :=
  let w := rowLabel r
  if w = "" then acc
  else if (acc.lookup w).isSome then acc
  else acc ++ [(w, r)]

/-- Embedding of the shard iteration of `_merge_csvs`: a missing shard file
(`os.path.exists` false, modelled by `none`) is skipped, an existing one is
scanned row by row. -/
def insertShard (acc : List (String × Row)) (shard : Option (List Row)) : List (String × Row) :=
  match shard with
  | none => acc
  | some rs => rs.foldl insertRow acc

/-- The deduplicated label-to-row map `rows` built by `_merge_csvs`
(repo.py lines 31-42), as an association list in insertion order. -/
def mergeRows (shards : List (Option (List Row))) : List (String × Row) :=
  shards.foldl insertShard []

/-- The order in which `_merge_csvs` writes rows:
`sorted(rows.keys(), key=_bpw_sort_key)` (repo.py line 50). -/
def mergedOrder (shards : List (Option (List Row))) : List String :=
  List.insertionSort bpwLe ((mergeRows shards).map Prod.fst)

/-- Embedding of `csv.DictWriter.writerow` with the merge fieldnames: a row
holding any field outside the writer fieldnames raises `ValueError`
(`extrasaction` defaults to raise); otherwise the cells are emitted in
fieldname order with restval `""`. -/
def projectRow (r : Row) : Except String (List String) :=
  match r.find? (fun kv => !mergeFieldnames.contains kv.1) with
  | some kv => .error ("ValueError: dict contains fields not in fieldnames: " ++ kv.1)
  | none => .ok (mergeFieldnames.map (fun f => getField r f))

/-- Value-level embedding of `_merge_csvs` (repo.py lines 29-51): the list of
data rows written to the canonical table, or the exception the write loop
raises. -/
def mergeCsvs (shards : List (Option (List Row))) : Except String (List (List String)) :=
  (mergedOrder shards).mapM (fun k =>
    match (mergeRows shards).lookup k with
    | some r => projectRow r
    | none => .ok [])

/-- First row carrying label w inside one shard, in file order. -/
def firstInRows (rs : List Row) (w : String) : Option Row :=
  rs.find? (fun r => rowLabel r == w)

/-- Row kept for label w by a first-shard-wins scan: the first row with that
label in the lowest-index existing shard that contains it (missing shard
files are skipped). -/
def firstRowFor : List (Option (List Row)) → String → Option Row
  | [], _ => none
  | none :: ss, w => firstRowFor ss w
  | some rs :: ss, w => (firstInRows rs w).or (firstRowFor ss w)

/-- All (stripped, nonempty) labels occurring across the shard files, in
shard order. -/
def labelsOf : List (Option (List Row)) → List String
  | [] => []
  | none :: ss => labelsOf ss
  | some rs :: ss => (rs.map rowLabel).filter (fun w => w ≠ "") ++ labelsOf ss

/-- Number of shard files containing a row labelled w. -/
def shardsWith (shards : List (Option (List Row))) (w : String) : Nat :=
  shards.countP (fun os =>
    match os with
    | none => false
    | some rs => rs.any (fun r => rowLabel r == w))

/-- A row whose fields all lie inside the merge writer fieldnames (the only
rows `csv.DictWriter.writerow` accepts without raising). -/
def rowFits (r : Row) : Bool := r.all (fun kv => mergeFieldnames.contains kv.1)

/-! ### Merge lemmas: first-shard-wins lookup, nodup keys, schema behaviour -/

lemma lookup_none_iff {β : Type} (m : List (String × β)) (w : String) :
    m.lookup w = none ↔ w ∉ m.map Prod.fst := by
  induction m with
  | nil => simp
  | cons kv m ih =>
    rcases kv with ⟨k, v⟩
    by_cases h : w = k
    · subst h
      simp [List.lookup]
    · have hb : (w == k) = false := beq_eq_false_iff_ne.mpr h
      simp only [List.lookup, hb, List.map_cons, List.mem_cons]
      rw [ih]
      constructor
      · intro hn hmem
        rcases hmem with h1 | h1
        · exact h h1
        · exact hn h1
      · intro hn hmem
        exact hn (Or.inr hmem)

lemma lookup_isSome_iff {β : Type} (m : List (String × β)) (w : String) :
    (m.lookup w).isSome = true ↔ w ∈ m.map Prod.fst := by
  rw [Option.isSome_iff_ne_none, ne_eq, lookup_none_iff]
  exact not_not

lemma lookup_foldl_insertRow (w : String) (hw : w ≠ "") :
    ∀ (rs : List Row) (acc : List (String × Row)),
      (rs.foldl insertRow acc).lookup w = (acc.lookup w).or (firstInRows rs w) := by
  intro rs
  induction rs with
  | nil => intro acc; simp [firstInRows]
  | cons r rs ih =>
    intro acc
    rw [List.foldl_cons, ih]
    by_cases h2 : rowLabel r = w
    · subst h2
      have hfr : firstInRows (r :: rs) (rowLabel r) = some r := by
        unfold firstInRows
        rw [List.find?_cons]
        simp
      rw [hfr]
      unfold insertRow
      rw [if_neg hw]
      by_cases h1 : ((acc.lookup (rowLabel r)).isSome = true)
      · rw [if_pos h1]
        rcases Option.isSome_iff_exists.mp h1 with ⟨v, hv⟩
        rw [hv]
        rfl
      · rw [if_neg h1]
        have hnone : acc.lookup (rowLabel r) = none := by
          cases hl : acc.lookup (rowLabel r)
          · rfl
          · exact absurd (by rw [hl]; rfl) h1
        rw [List.lookup_append, hnone]
        have hsing : List.lookup (rowLabel r) [(rowLabel r, r)] = some r := by
          simp [List.lookup]
        rw [hsing]
        rfl
    · have hfr : firstInRows (r :: rs) w = firstInRows rs w := by
        unfold firstInRows
        have hb : (rowLabel r == w) = false := beq_eq_false_iff_ne.mpr h2
        simp only [List.find?_cons, hb]
      rw [hfr]
      unfold insertRow
      by_cases h0 : rowLabel r = ""
      · rw [if_pos h0]
      · rw [if_neg h0]
        by_cases h1 : ((acc.lookup (rowLabel r)).isSome = true)
        · rw [if_pos h1]
        · rw [if_neg h1]
          rw [List.lookup_append]
          have hsing : List.lookup w [(rowLabel r, r)] = none := by
            have hb : (w == rowLabel r) = false :=
              beq_eq_false_iff_ne.mpr (fun h => h2 h.symm)
            simp [List.lookup, hb]
          rw [hsing, Option.or_none]

lemma firstRowFor_cons_none (shards : List (Option (List Row))) (w : String) :
    firstRowFor (none :: shards) w = firstRowFor shards w := rfl

lemma firstRowFor_cons_some (rs : List Row) (shards : List (Option (List Row))) (w : String) :
    firstRowFor (some rs :: shards) w = (firstInRows rs w).or (firstRowFor shards w) := rfl

lemma lookup_foldl_insertShard (w : String) (hw : w ≠ "") :
    ∀ (shards : List (Option (List Row))) (acc : List (String × Row)),
      (shards.foldl insertShard acc).lookup w = (acc.lookup w).or (firstRowFor shards w) := by
  intro shards
  induction shards with
  | nil => intro acc; simp [firstRowFor]
  | cons os shards ih =>
    intro acc
    rw [List.foldl_cons, ih]
    cases os with
    | none =>
      rw [firstRowFor_cons_none]
      rfl
    | some rs =>
      show ((rs.foldl insertRow acc).lookup w).or (firstRowFor shards w) = _
      rw [lookup_foldl_insertRow w hw rs acc, Option.or_assoc, firstRowFor_cons_some]

/-- First-shard-wins: the row `_merge_csvs` keeps for a label is the first
row carrying that label in the lowest-index existing shard containing it. -/
lemma lookup_mergeRows (shards : List (Option (List Row))) (w : String) (hw : w ≠ "") :
    (mergeRows shards).lookup w = firstRowFor shards w := by
  unfold mergeRows
  rw [lookup_foldl_insertShard w hw shards []]
  rfl

lemma keys_foldl_insertRow (rs : List Row) :
    ∀ acc : List (String × Row),
      (acc.map Prod.fst).Nodup → "" ∉ acc.map Prod.fst →
      ((rs.foldl insertRow acc).map Prod.fst).Nodup ∧
        "" ∉ (rs.foldl insertRow acc).map Prod.fst := by
  induction rs with
  | nil => intro acc h1 h2; exact ⟨h1, h2⟩
  | cons r rs ih =>
    intro acc h1 h2
    rw [List.foldl_cons]
    apply ih
    · unfold insertRow
      by_cases h0 : rowLabel r = ""
      · rw [if_pos h0]; exact h1
      · rw [if_neg h0]
        by_cases hs : ((acc.lookup (rowLabel r)).isSome : Prop)
        · rw [if_pos hs]; exact h1
        · rw [if_neg hs]
          have hnotin : rowLabel r ∉ acc.map Prod.fst := by
            intro hmem
            exact hs ((lookup_isSome_iff acc (rowLabel r)).mpr hmem)
          rw [List.map_append]
          rw [List.nodup_append]
          refine ⟨h1, by simp, ?_⟩
          intro x hx hx2
          simp only [List.map_cons, List.map_nil, List.mem_singleton] at hx2
          subst hx2
          exact hnotin hx
    · unfold insertRow
      by_cases h0 : rowLabel r = ""
      · rw [if_pos h0]; exact h2
      · rw [if_neg h0]
        by_cases hs : ((acc.lookup (rowLabel r)).isSome : Prop)
        · rw [if_pos hs]; exact h2
        · rw [if_neg hs, List.map_append]
          intro hmem
          rcases List.mem_append.mp hmem with h | h
          · exact h2 h
          · simp only [List.map_cons, List.map_nil, List.mem_singleton] at h
            exact h0 h.symm

lemma keys_mergeRows_aux (shards : List (Option (List Row))) :
    ∀ acc : List (String × Row),
      (acc.map Prod.fst).Nodup → "" ∉ acc.map Prod.fst →
      ((shards.foldl insertShard acc).map Prod.fst).Nodup ∧
        "" ∉ (shards.foldl insertShard acc).map Prod.fst := by
  induction shards with
  | nil => intro acc h1 h2; exact ⟨h1, h2⟩
  | cons os shards ih =>
    intro acc h1 h2
    rw [List.foldl_cons]
    cases os with
    | none => exact ih acc h1 h2
    | some rs =>
      have h := keys_foldl_insertRow rs acc h1 h2
      exact ih _ h.1 h.2

/-- The labels kept by the merge are pairwise distinct. -/
lemma keys_mergeRows_nodup (shards : List (Option (List Row))) :
    ((mergeRows shards).map Prod.fst).Nodup :=
  (keys_mergeRows_aux shards [] (by simp) (by simp)).1

lemma empty_not_mem_keys (shards : List (Option (List Row))) :
    "" ∉ (mergeRows shards).map Prod.fst :=
  (keys_mergeRows_aux shards [] (by simp) (by simp)).2

lemma firstInRows_isSome_iff (rs : List Row) (w : String) :
    (firstInRows rs w).isSome ↔ w ∈ rs.map rowLabel := by
  unfold firstInRows
  rw [List.find?_isSome]
  constructor
  · rintro ⟨r, hr, hl⟩
    exact List.mem_map.mpr ⟨r, hr, by simpa using hl⟩
  · intro h
    rcases List.mem_map.mp h with ⟨r, hr, hl⟩
    exact ⟨r, hr, by simpa using hl⟩

lemma labelsOf_cons_none (shards : List (Option (List Row))) :
    labelsOf (none :: shards) = labelsOf shards := rfl

lemma labelsOf_cons_some (rs : List Row) (shards : List (Option (List Row))) :
    labelsOf (some rs :: shards) =
      (rs.map rowLabel).filter (fun x => x ≠ "") ++ labelsOf shards := rfl

lemma firstRowFor_isSome_iff (shards : List (Option (List Row))) (w : String) (hw : w ≠ "") :
    (firstRowFor shards w).isSome = true ↔ w ∈ labelsOf shards := by
  induction shards with
  | nil => simp [firstRowFor, labelsOf]
  | cons os shards ih =>
    cases os with
    | none =>
      rw [firstRowFor_cons_none, labelsOf_cons_none]
      exact ih
    | some rs =>
      rw [firstRowFor_cons_some, labelsOf_cons_some, List.mem_append]
      have hfilter : w ∈ (rs.map rowLabel).filter (fun x => x ≠ "") ↔ w ∈ rs.map rowLabel := by
        constructor
        · intro h; exact (List.mem_filter.mp h).1
        · intro h; exact List.mem_filter.mpr ⟨h, by simpa using hw⟩
      rw [hfilter]
      cases hfi : firstInRows rs w with
      | some r =>
        have hmem : w ∈ rs.map rowLabel := by
          rw [← firstInRows_isSome_iff, hfi]; rfl
        simp [hmem]
      | none =>
        have hnot : w ∉ rs.map rowLabel := by
          rw [← firstInRows_isSome_iff, hfi]; simp
        simp only [hnot, false_or]
        rw [Option.none_or]
        exact ih

lemma empty_not_mem_labelsOf (shards : List (Option (List Row))) :
    "" ∉ labelsOf shards := by
  induction shards with
  | nil => simp [labelsOf]
  | cons os shards ih =>
    cases os with
    | none => rw [labelsOf_cons_none]; exact ih
    | some rs =>
      rw [labelsOf_cons_some]
      intro h
      rcases List.mem_append.mp h with h | h
      · have := (List.mem_filter.mp h).2
        simp at this
      · exact ih h

/-- Membership in the merged key set is exactly label occurrence across the
shard files. -/
lemma mem_keys_iff_labelsOf (shards : List (Option (List Row))) (w : String) :
    w ∈ (mergeRows shards).map Prod.fst ↔ w ∈ labelsOf shards := by
  by_cases hw : w = ""
  · subst hw
    constructor
    · intro h; exact absurd h (empty_not_mem_keys shards)
    · intro h; exact absurd h (empty_not_mem_labelsOf shards)
  · rw [← lookup_isSome_iff, lookup_mergeRows shards w hw, firstRowFor_isSome_iff shards w hw]

lemma lookup_some_mem_values {β : Type} (m : List (String × β)) (w : String) (v : β)
    (h : m.lookup w = some v) : v ∈ m.map Prod.snd := by
  induction m with
  | nil => simp [List.lookup] at h
  | cons kv m ih =>
    rcases kv with ⟨k, b⟩
    by_cases hk : w = k
    · subst hk
      simp only [List.lookup, beq_self_eq_true] at h
      simp only [List.map_cons, List.mem_cons]
      exact Or.inl (Option.some_inj.mp h).symm
    · have hb : (w == k) = false := beq_eq_false_iff_ne.mpr hk
      simp only [List.lookup, hb] at h
      simp only [List.map_cons, List.mem_cons]
      exact Or.inr (ih h)

lemma mem_values_foldl_insertRow (rs : List Row) :
    ∀ (acc : List (String × Row)) (r : Row),
      r ∈ (rs.foldl insertRow acc).map Prod.snd → r ∈ acc.map Prod.snd ∨ r ∈ rs := by
  induction rs with
  | nil => intro acc r h; exact Or.inl h
  | cons r0 rs ih =>
    intro acc r h
    rw [List.foldl_cons] at h
    rcases ih (insertRow acc r0) r h with h1 | h1
    · unfold insertRow at h1
      by_cases h0 : rowLabel r0 = ""
      · rw [if_pos h0] at h1; exact Or.inl h1
      · rw [if_neg h0] at h1
        by_cases hs : ((acc.lookup (rowLabel r0)).isSome = true)
        · rw [if_pos hs] at h1; exact Or.inl h1
        · rw [if_neg hs, List.map_append] at h1
          rcases List.mem_append.mp h1 with h2 | h2
          · exact Or.inl h2
          · simp only [List.map_cons, List.map_nil, List.mem_singleton] at h2
            subst h2
            exact Or.inr (List.mem_cons_self _ _)
    · exact Or.inr (List.mem_cons_of_mem _ h1)

lemma mem_values_mergeRows_aux (shards : List (Option (List Row))) :
    ∀ (acc : List (String × Row)) (r : Row),
      r ∈ (shards.foldl insertShard acc).map Prod.snd →
        r ∈ acc.map Prod.snd ∨ ∃ rs, some rs ∈ shards ∧ r ∈ rs := by
  induction shards with
  | nil => intro acc r h; exact Or.inl h
  | cons os shards ih =>
    intro acc r h
    rw [List.foldl_cons] at h
    cases os with
    | none =>
      rcases ih acc r h with h1 | ⟨rs, h1, h2⟩
      · exact Or.inl h1
      · exact Or.inr ⟨rs, List.mem_cons_of_mem _ h1, h2⟩
    | some rs0 =>
      rcases ih _ r h with h1 | ⟨rs, h1, h2⟩
      · rcases mem_values_foldl_insertRow rs0 acc r h1 with h2 | h2
        · exact Or.inl h2
        · exact Or.inr ⟨rs0, List.mem_cons_self _ _, h2⟩
      · exact Or.inr ⟨rs, List.mem_cons_of_mem _ h1, h2⟩

/-- Every row the merge keeps comes from one of the shard files. -/
lemma mem_values_mergeRows (shards : List (Option (List Row))) (r : Row)
    (h : r ∈ (mergeRows shards).map Prod.snd) : ∃ rs, some rs ∈ shards ∧ r ∈ rs := by
  rcases mem_values_mergeRows_aux shards [] r h with h1 | h1
  · simp at h1
  · exact h1

lemma mapM_except_ok {α β : Type} (f : α → Except String β) :
    ∀ l : List α, (∀ x ∈ l, ∃ y, f x = .ok y) → ∃ ys, l.mapM f = .ok ys := by
  intro l
  induction l with
  | nil => intro _; exact ⟨[], rfl⟩
  | cons a l ih =>
    intro h
    rcases h a (List.mem_cons_self _ _) with ⟨y, hy⟩
    rcases ih (fun x hx => h x (List.mem_cons_of_mem _ hx)) with ⟨ys, hys⟩
    refine ⟨y :: ys, ?_⟩
    rw [List.mapM_cons, hy, hys]
    rfl

lemma projectRow_ok_of_fits (r : Row) (h : rowFits r = true) :
    projectRow r = .ok (mergeFieldnames.map (fun f => getField r f)) := by
  unfold projectRow
  have hfind : r.find? (fun kv => !mergeFieldnames.contains kv.1) = none := by
    rw [List.find?_eq_none]
    intro kv hkv
    have hc := (List.all_eq_true.mp h) kv hkv
    simp only [Bool.not_eq_true]
    rw [hc]
    simp
  rw [hfind]

lemma mem_labelsOf_iff (shards : List (Option (List Row))) (w : String) (hw : w ≠ "") :
    w ∈ labelsOf shards ↔ ∃ rs, some rs ∈ shards ∧ w ∈ rs.map rowLabel := by
  induction shards with
  | nil => simp [labelsOf]
  | cons os shards ih =>
    cases os with
    | none =>
      rw [labelsOf_cons_none, ih]
      constructor
      · rintro ⟨rs, h1, h2⟩; exact ⟨rs, List.mem_cons_of_mem _ h1, h2⟩
      · rintro ⟨rs, h1, h2⟩
        rcases List.mem_cons.mp h1 with h3 | h3
        · cases h3
        · exact ⟨rs, h3, h2⟩
    | some rs0 =>
      rw [labelsOf_cons_some, List.mem_append]
      constructor
      · rintro (h | h)
        · exact ⟨rs0, List.mem_cons_self _ _, (List.mem_filter.mp h).1⟩
        · rcases ih.mp h with ⟨rs, h1, h2⟩
          exact ⟨rs, List.mem_cons_of_mem _ h1, h2⟩
      · rintro ⟨rs, h1, h2⟩
        rcases List.mem_cons.mp h1 with h3 | h3
        · rcases Option.some_inj.mp h3 with rfl
          exact Or.inl (List.mem_filter.mpr ⟨h2, by simpa using hw⟩)
        · exact Or.inr (ih.mpr ⟨rs, h3, h2⟩)

lemma shardsWith_pos_mem_labelsOf (shards : List (Option (List Row))) (w : String)
    (hw : w ≠ "") (h : 0 < shardsWith shards w) : w ∈ labelsOf shards := by
  unfold shardsWith at h
  rcases List.countP_pos.mp h with ⟨os, hos, hp⟩
  cases os with
  | none => simp at hp
  | some rs =>
    simp only [List.any_eq_true] at hp
    rcases hp with ⟨r, hr, hl⟩
    refine (mem_labelsOf_iff shards w hw).mpr ⟨rs, hos, ?_⟩
    exact List.mem_map.mpr ⟨r, hr, by simpa using hl⟩

lemma mergeCsvs_ok_of_fits (shards : List (Option (List Row)))
    (h : ∀ rs, some rs ∈ shards → ∀ r ∈ rs, rowFits r = true) :
    ∃ t, mergeCsvs shards = .ok t := by
  unfold mergeCsvs
  apply mapM_except_ok
  intro k _
  cases hl : (mergeRows shards).lookup k with
  | none => exact ⟨[], rfl⟩
  | some r =>
    have hr : r ∈ (mergeRows shards).map Prod.snd := lookup_some_mem_values _ k r hl
    rcases mem_values_mergeRows shards r hr with ⟨rs, hrs, hrrs⟩
    exact ⟨_, projectRow_ok_of_fits r (h rs hrs r hrrs)⟩

/-! ### Claim C1: row order of the canonical table -/

/-- C1 (counterexample): with the labels 4, 2, bf16, 3 spread over two
shards, `_merge_csvs` emits the rows in the order bf16, 2, 3, 4 — not in the
claimed order 2, 3, 4, bf16.  `_bpw_sort_key` gives `"bf16"` the key -1.0,
below every numeric label, so the baseline sorts first, not last. -/
theorem merge_order_claim_false :
    mergedOrder [some [[("weights", "4")], [("weights", "2")]],
        some [[("weights", "bf16")], [("weights", "3")]]] = ["bf16", "2", "3", "4"] ∧
    mergedOrder [some [[("weights", "4")], [("weights", "2")]],
        some [[("weights", "bf16")], [("weights", "3")]]] ≠ ["2", "3", "4", "bf16"] := by
  decide

/-- C1 (amended): for every set of shard ledgers whose distinct labels are
4, 2, bf16, 3 — however distributed — `_merge_csvs` writes the canonical
table rows in the order bf16, 2, 3, 4: the baseline label first (its sort
key -1.0 lies below every numeric label), then numeric labels ascending. -/
theorem merge_order_bf16_first (shards : List (Option (List Row)))
    (H : ∀ w, w ∈ labelsOf shards ↔ w ∈ (["4", "2", "bf16", "3"] : List String)) :
    mergedOrder shards = ["bf16", "2", "3", "4"] := by
  have hnd : ((mergeRows shards).map Prod.fst).Nodup := keys_mergeRows_nodup shards
  have hmem : ∀ w, w ∈ (mergeRows shards).map Prod.fst ↔
      w ∈ (["4", "2", "bf16", "3"] : List String) :=
    fun w => (mem_keys_iff_labelsOf shards w).trans (H w)
  have hperm : List.Perm ((mergeRows shards).map Prod.fst) ["4", "2", "bf16", "3"] :=
    (List.perm_ext_iff_of_nodup hnd (by decide)).mpr hmem
  have hperm2 : List.Perm (mergedOrder shards) ["bf16", "2", "3", "4"] :=
    ((List.perm_insertionSort bpwLe _).trans hperm).trans (by decide)
  exact List.eq_of_perm_of_sorted hperm2 (List.sorted_insertionSort bpwLe _) (by decide)

/-- C1 (witness): the amended order theorem applied to one concrete shard
distribution holding exactly the labels 4, 2, bf16, 3. -/
theorem merge_order_bf16_first_witness :
    (∀ w, w ∈ labelsOf [some [[("weights", "4")], [("weights", "2")],
          [("weights", "bf16")], [("weights", "3")]]] ↔
        w ∈ (["4", "2", "bf16", "3"] : List String)) ∧
    mergedOrder [some [[("weights", "4")], [("weights", "2")],
        [("weights", "bf16")], [("weights", "3")]]] = ["bf16", "2", "3", "4"] := by
  have H : ∀ w, w ∈ labelsOf [some [[("weights", "4")], [("weights", "2")],
        [("weights", "bf16")], [("weights", "3")]]] ↔
      w ∈ (["4", "2", "bf16", "3"] : List String) := by
    intro w
    rw [show labelsOf [some [[("weights", "4")], [("weights", "2")],
        [("weights", "bf16")], [("weights", "3")]]] = ["4", "2", "bf16", "3"] from by decide]
  exact ⟨H, merge_order_bf16_first _ H⟩

/-! ### Claim C3: duplicate labels across shards -/

/-- C3 (counterexample): on shard ledgers carrying the repository's own
ledger schema `CSV_FIELDS`, `_merge_csvs` raises `ValueError` in the
duplicate-label case instead of writing one deduplicated row: every ledger
row holds the field `"PPL r-10"`, which is missing from the merge writer
fieldnames, and `csv.DictWriter.writerow` raises on extra fields. -/
theorem merge_duplicate_raises_on_ledger_schema :
    shardsWith [some [[("weights", "2"), ("PPL r-10", "8.1"), ("K/L Div", "0.1"),
          ("PPL r-100", "9.0"), ("GiB", "4.0")]],
        some [[("weights", "2"), ("PPL r-10", "8.3"), ("K/L Div", "0.2"),
          ("PPL r-100", "9.1"), ("GiB", "4.0")]]] "2" = 2 ∧
    mergeCsvs [some [[("weights", "2"), ("PPL r-10", "8.1"), ("K/L Div", "0.1"),
          ("PPL r-100", "9.0"), ("GiB", "4.0")]],
        some [[("weights", "2"), ("PPL r-10", "8.3"), ("K/L Div", "0.2"),
          ("PPL r-100", "9.1"), ("GiB", "4.0")]]] =
      .error "ValueError: dict contains fields not in fieldnames: PPL r-10" := by
  decide

/-- C3 (amended): for shard ledgers whose rows carry only fields of the merge
writer fieldnames, a label L present in at least two shards yields a merge
that raises no exception, keeps exactly one row for L, and keeps precisely
the first row labelled L from the lowest-index shard containing it; on rows
carrying the full ledger schema `CSV_FIELDS` the merge instead raises
`ValueError` (see the counterexample). -/
theorem merge_duplicate_first_shard_wins
    (shards : List (Option (List Row))) (L : String)
    (hfits : ∀ rs, some rs ∈ shards → ∀ r ∈ rs, rowFits r = true)
    (hL : L ≠ "")
    (hdup : 2 ≤ shardsWith shards L) :
    (∃ t, mergeCsvs shards = .ok t) ∧
    (mergedOrder shards).count L = 1 ∧
    (mergeRows shards).lookup L = firstRowFor shards L ∧
    (firstRowFor shards L).isSome = true := by
  have hmem : L ∈ labelsOf shards :=
    shardsWith_pos_mem_labelsOf shards L hL (lt_of_lt_of_le (by norm_num) hdup)
  have hkeys : L ∈ (mergeRows shards).map Prod.fst :=
    (mem_keys_iff_labelsOf shards L).mpr hmem
  have hndK : ((mergeRows shards).map Prod.fst).Nodup := keys_mergeRows_nodup shards
  refine ⟨mergeCsvs_ok_of_fits shards hfits, ?_, lookup_mergeRows shards L hL, ?_⟩
  · have hperm : List.Perm (mergedOrder shards) ((mergeRows shards).map Prod.fst) :=
      List.perm_insertionSort bpwLe _
    rw [hperm.count_eq]
    exact List.count_eq_one_of_mem hndK hkeys
  · rw [← lookup_mergeRows shards L hL, lookup_isSome_iff]
    exact hkeys

/-- C3 (witness): the duplicate-label theorem applied to two concrete shards
that both contain a row for the label 2 with rows inside the writer schema;
the shard-0 row (GiB 4.0) wins over the shard-1 row (GiB 9.9). -/
theorem merge_duplicate_first_shard_wins_witness :
    2 ≤ shardsWith [some [[("weights", "2"), ("GiB", "4.0")]],
        some [[("weights", "2"), ("GiB", "9.9")]]] "2" ∧
    ((∃ t, mergeCsvs [some [[("weights", "2"), ("GiB", "4.0")]],
          some [[("weights", "2"), ("GiB", "9.9")]]] = .ok t) ∧
      (mergedOrder [some [[("weights", "2"), ("GiB", "4.0")]],
          some [[("weights", "2"), ("GiB", "9.9")]]]).count "2" = 1 ∧
      (mergeRows [some [[("weights", "2"), ("GiB", "4.0")]],
          some [[("weights", "2"), ("GiB", "9.9")]]]).lookup "2" =
        firstRowFor [some [[("weights", "2"), ("GiB", "4.0")]],
          some [[("weights", "2"), ("GiB", "9.9")]]] "2" ∧
      (firstRowFor [some [[("weights", "2"), ("GiB", "4.0")]],
          some [[("weights", "2"), ("GiB", "9.9")]]] "2").isSome = true) := by
  have hfits : ∀ rs, some rs ∈ [some [[("weights", "2"), ("GiB", "4.0")]],
      some [[("weights", "2"), ("GiB", "9.9")]]] → ∀ r ∈ rs, rowFits r = true := by
    intro rs hrs
    rcases List.mem_cons.mp hrs with h | h
    · have h3 := Option.some_inj.mp h
      subst h3
      decide
    · rcases List.mem_cons.mp h with h2 | h2
      · have h3 := Option.some_inj.mp h2
        subst h3
        decide
      · cases h2
  exact ⟨by decide, merge_duplicate_first_shard_wins _ "2" hfits (by decide) (by decide)⟩

/-! ### Claim C9: canonical table schema -/

/-- C9 (code evaluated at the failing input): the merge writer fieldnames
differ from the ledger schema `CSV_FIELDS` (the column `"PPL r-10"` is
dropped), and merging a single shard ledger whose row carries the ledger
schema raises `ValueError` instead of succeeding. -/
theorem merge_schema_mismatch :
    mergeFieldnames ≠ CSV_FIELDS ∧
    mergeCsvs [some [[("weights", "3"), ("PPL r-10", "7.5"), ("K/L Div", "0.05"),
        ("PPL r-100", "8.0"), ("GiB", "5.5")]]] =
      .error "ValueError: dict contains fields not in fieldnames: PPL r-10" := by
  decide

/-! ### The merge write discipline (claim C5) -/

/-- Filesystem operations a table-writing routine can perform on or around
its destination path.  `_merge_csvs` only ever emits `openTrunc`,
`writeLine` and `closeFile` on the destination itself; `openTmp` and
`renameFile` are the vocabulary of a temp-write-then-rename discipline and
are never emitted by this code. -/
inductive FsOp
  | openTrunc (path : String)
  | writeLine (path : String) (cells : List String)
  | closeFile (path : String)
  | openTmp (path : String)
  | renameFile (src dst : String)
  deriving DecidableEq

/-- View of the destination file: the content visible to a concurrent reader
(`disk`) and the not-yet-flushed write buffer (`buf`). -/
structure FileView where
  disk : List (List String)
  buf : List (List String)
  deriving DecidableEq

/-- Effect of one operation on the destination view.  Opening with mode
`"w"` truncates immediately; buffered row writes become visible at close
(the reading most favorable to a single-flush interpretation).  The two
never-emitted operations leave the destination view unchanged. -/
def stepOp (v : FileView) : FsOp → FileView
  | .openTrunc _ => ⟨[], []⟩
  | .writeLine _ cells => ⟨v.disk, v.buf ++ [cells]⟩
  | .closeFile _ => ⟨v.disk ++ v.buf, []⟩
  | .openTmp _ => v
  | .renameFile _ _ => v

/-- Destination contents a concurrent reader can observe, one entry per
instant between operations, starting from the prior contents `old`. -/
def diskStates (old : List (List String)) (ops : List FsOp) : List (List (List String)) :=
  (ops.scanl stepOp ⟨old, []⟩).map FileView.disk

/-- Row-writing loop of `_merge_csvs` (repo.py lines 50-51) as an operation
trace: one `writeLine` per sorted key; a `writerow` exception ends the loop
and the `with` block closes the file. -/
def mergeTraceRows (out : String) : List String → List (String × Row) → List FsOp
  | [], _ => [.closeFile out]
  | k :: ks, m =>
    match m.lookup k with
    | none => mergeTraceRows out ks m
    | some r =>
      match projectRow r with
      | .ok cells => .writeLine out cells :: mergeTraceRows out ks m
      | .error _ => [.closeFile out]

/-- Operation trace of the write phase of `_merge_csvs` (repo.py lines
44-51): `open(out_csv, "w")` truncates the destination in place, then the
header and the sorted rows are written directly to it. -/
def mergeTrace (out : String) (shards : List (Option (List Row))) : List FsOp :=
  .openTrunc out :: .writeLine out mergeFieldnames ::
    mergeTraceRows out (mergedOrder shards) (mergeRows shards)

lemma mergeTraceRows_shape (out : String) :
    ∀ (ks : List String) (m : List (String × Row)),
      ∃ ws : List (List String),
        mergeTraceRows out ks m = (ws.map (FsOp.writeLine out)) ++ [.closeFile out] := by
  intro ks
  induction ks with
  | nil => intro m; exact ⟨[], rfl⟩
  | cons k ks ih =>
    intro m
    rcases ih m with ⟨ws, hws⟩
    cases hlk : m.lookup k with
    | none =>
      refine ⟨ws, ?_⟩
      simp only [mergeTraceRows, hlk]
      exact hws
    | some r =>
      cases hpr : projectRow r with
      | ok cells =>
        refine ⟨cells :: ws, ?_⟩
        simp only [mergeTraceRows, hlk, hpr, hws]
        rfl
      | error e =>
        refine ⟨[], ?_⟩
        simp only [mergeTraceRows, hlk, hpr]
        rfl

lemma foldl_stepOp_writes (out : String) :
    ∀ (ws : List (List String)) (v : FileView),
      (ws.map (FsOp.writeLine out)).foldl stepOp v = ⟨v.disk, v.buf ++ ws⟩ := by
  intro ws
  induction ws with
  | nil => intro v; simp
  | cons w ws ih =>
    intro v
    rw [List.map_cons, List.foldl_cons, ih]
    show FileView.mk v.disk ((v.buf ++ [w]) ++ ws) = _
    rw [List.append_assoc]
    rfl

lemma scanl_getLast {α β : Type} (f : β → α → β) :
    ∀ (l : List α) (i : β), (l.scanl f i).getLast? = some (l.foldl f i) := by
  intro l
  induction l with
  | nil => intro i; rfl
  | cons a l ih =>
    intro i
    rw [List.scanl_cons, List.getLast?_append, ih]
    rfl

lemma head_mem_scanl {α β : Type} (f : β → α → β) (b : β) (l : List α) :
    b ∈ List.scanl f b l := by
  cases l <;> simp [List.scanl]

/-- Final destination contents after the merge write: the header followed by
the rows written before the loop finished (or aborted). -/
lemma mergeTrace_final (out : String) (old : List (List String))
    (shards : List (Option (List Row))) :
    ∃ ws, (diskStates old (mergeTrace out shards)).getLast? = some (mergeFieldnames :: ws) := by
  rcases mergeTraceRows_shape out (mergedOrder shards) (mergeRows shards) with ⟨ws, hws⟩
  refine ⟨ws, ?_⟩
  unfold diskStates mergeTrace
  rw [List.getLast?_map, scanl_getLast]
  rw [List.foldl_cons, List.foldl_cons, hws, List.foldl_append]
  rw [show stepOp (stepOp ⟨old, []⟩ (FsOp.openTrunc out)) (FsOp.writeLine out mergeFieldnames) =
    ⟨[], [mergeFieldnames]⟩ from rfl]
  rw [foldl_stepOp_writes]
  rfl

/-- The empty file is always observable right after the truncating open. -/
lemma empty_mem_diskStates (out : String) (old : List (List String))
    (shards : List (Option (List Row))) :
    [] ∈ diskStates old (mergeTrace out shards) := by
  unfold diskStates mergeTrace
  rw [List.scanl_cons]
  refine List.mem_map.mpr ⟨⟨[], []⟩, ?_, rfl⟩
  refine List.mem_append.mpr (Or.inr ?_)
  exact head_mem_scanl _ _ _

/-! ### Claim C5: atomicity of the canonical table write -/

/-- C5 (counterexample): merging one shard over a previously written
canonical table lets a concurrent reader observe the empty file — a state
that is neither the prior table nor the complete new table — because
`_merge_csvs` opens its destination with truncation and writes it in place. -/
theorem merge_write_partial_observable :
    [] ∈ diskStates [["bf16", "0.0", "5.0", "3.0"]]
        (mergeTrace "out.csv" [some [[("weights", "2")]]]) ∧
    ([] : List (List String)) ≠ [["bf16", "0.0", "5.0", "3.0"]] ∧
    (diskStates [["bf16", "0.0", "5.0", "3.0"]]
        (mergeTrace "out.csv" [some [[("weights", "2")]]])).getLast? =
      some [["weights", "K/L Div", "PPL r-100", "GiB"], ["2", "", "", ""]] ∧
    ([] : List (List String)) ≠ [["weights", "K/L Div", "PPL r-100", "GiB"], ["2", "", "", ""]] := by
  decide

/-- C5 (amended): every merge invocation writes the canonical table in
place: the first operation truncates the destination itself, no temp file is
opened and no rename is performed, the empty file is an observable
intermediate state, and whenever a prior table existed a concurrent reader
can observe contents that are neither the prior nor the final table.  The
write is not atomic. -/
theorem merge_write_in_place_not_atomic (out : String) (old : List (List String))
    (shards : List (Option (List Row))) (hold : old ≠ []) :
    (mergeTrace out shards).head? = some (.openTrunc out) ∧
    (∀ op ∈ mergeTrace out shards,
      (∀ p, op ≠ .openTmp p) ∧ (∀ a b, op ≠ .renameFile a b)) ∧
    [] ∈ diskStates old (mergeTrace out shards) ∧
    (∃ tbl, (diskStates old (mergeTrace out shards)).getLast? = some tbl ∧
      ([] : List (List String)) ≠ old ∧ ([] : List (List String)) ≠ tbl) := by
  refine ⟨rfl, ?_, empty_mem_diskStates out old shards, ?_⟩
  · intro op hop
    have hops : ∀ x ∈ mergeTrace out shards,
        (∃ p, x = FsOp.openTrunc p) ∨ (∃ p c, x = FsOp.writeLine p c) ∨
          (∃ p, x = FsOp.closeFile p) := by
      intro x hx
      unfold mergeTrace at hx
      rcases List.mem_cons.mp hx with h | h
      · exact Or.inl ⟨out, h⟩
      rcases List.mem_cons.mp h with h | h
      · exact Or.inr (Or.inl ⟨out, mergeFieldnames, h⟩)
      rcases mergeTraceRows_shape out (mergedOrder shards) (mergeRows shards) with ⟨ws, hws⟩
      rw [hws] at h
      rcases List.mem_append.mp h with h | h
      · rcases List.mem_map.mp h with ⟨c, _, hc⟩
        exact Or.inr (Or.inl ⟨out, c, hc.symm⟩)
      · rcases List.mem_singleton.mp h with rfl
        exact Or.inr (Or.inr ⟨out, rfl⟩)
    rcases hops op hop with ⟨p, rfl⟩ | ⟨p, c, rfl⟩ | ⟨p, rfl⟩ <;>
      exact ⟨fun _ h => FsOp.noConfusion h, fun _ _ h => FsOp.noConfusion h⟩
  · rcases mergeTrace_final out old shards with ⟨ws, hws⟩
    refine ⟨mergeFieldnames :: ws, hws, fun h => hold h.symm, fun h => ?_⟩
    exact List.noConfusion h

/-- C5 (witness): the in-place-write theorem applied to a concrete prior
table and a concrete shard list. -/
theorem merge_write_in_place_not_atomic_witness :
    ([["bf16", "0.0", "5.0", "3.0"]] : List (List String)) ≠ [] ∧
    ((mergeTrace "m.csv" [some [[("weights", "4")]]]).head? =
        some (.openTrunc "m.csv") ∧
      (∀ op ∈ mergeTrace "m.csv" [some [[("weights", "4")]]],
        (∀ p, op ≠ .openTmp p) ∧ (∀ a b, op ≠ .renameFile a b)) ∧
      [] ∈ diskStates [["bf16", "0.0", "5.0", "3.0"]]
          (mergeTrace "m.csv" [some [[("weights", "4")]]]) ∧
      (∃ tbl, (diskStates [["bf16", "0.0", "5.0", "3.0"]]
          (mergeTrace "m.csv" [some [[("weights", "4")]]])).getLast? = some tbl ∧
        ([] : List (List String)) ≠ [["bf16", "0.0", "5.0", "3.0"]] ∧
        ([] : List (List String)) ≠ tbl)) :=
  ⟨by decide, merge_write_in_place_not_atomic "m.csv" [["bf16", "0.0", "5.0", "3.0"]]
    [some [[("weights", "4")]]] (by decide)⟩

/-! ### The measurement layer: `run_measure` and `append_csv_row` (measure.py) -/

/-- A CSV cell value as `run_measure` builds it: either a string (the empty
`"PPL r-10"` of the baseline row) or a numeric result. -/
inductive Val
  | str (s : String)
  | num (v : Rat)
  deriving DecidableEq

/-- One ledger record as `run_measure` assembles it (measure.py lines
330-336): the five `CSV_FIELDS` values. -/
structure MRow where
  weights : String
  pplR10 : Val
  klDiv : Rat
  ppl100 : Rat
  gib : Rat
  deriving DecidableEq

/-- Embedding of `read_existing_weights` (measure.py lines 98-111) on the
in-memory ledger: the stripped, nonempty weights values present. -/
def doneSet (led : List MRow) : List String :=
  (led.map (fun r => pyStrip r.weights)).filter (fun w => w ≠ "")

/-- External collaborators and filesystem of `run_measure`, as oracles:
`modelDiff` embeds `run_model_diff` (returns the pair (PPL r-10, K/L Div) or
raises), `pplLayer` embeds `run_ppl_layer`, `isDir` embeds
`os.path.isdir`, `sizeGib` embeds `file_size_gib`. -/
structure Collab where
  modelDiff : String → String → Nat → Nat → Except String (Rat × Rat)
  pplLayer : String → Nat → Nat → Except String Rat
  isDir : String → Bool
  sizeGib : String → Rat

/-- One collaborator invocation, recorded with its arguments. -/
inductive CollabCall
  | diff (ma mb : String) (device r : Nat)
  | ppl (m : String) (device r : Nat)
  deriving DecidableEq

/-- Errors `run_measure` can raise per label: the `FileNotFoundError` of
measure.py line 310, or an exception propagating out of a collaborator. -/
inductive MErr
  | notFound (dir : String)
  | collab (msg : String)
  deriving DecidableEq

/-- File operations of the durable append path. -/
inductive FileOp
  | openAppend
  | writeRow (r : MRow)
  | flushF
  | fsyncF
  | closeF
  deriving DecidableEq

/-- Embedding of `append_csv_row` (measure.py lines 114-120) as its
operation trace: open in append mode, write the row, `f.flush()`,
`os.fsync(f.fileno())`, close on leaving the `with` block. -/
def appendOps (r : MRow) : List FileOp :=
  [.openAppend, .writeRow r, .flushF, .fsyncF, .closeF]

/-- Result of processing one label: the ledger contents afterwards, the
error raised (if any), the file operations performed on the ledger, and the
collaborator calls made. -/
structure StepRes where
  ledger : List MRow
  err : Option MErr
  ops : List FileOp
  calls : List CollabCall
  deriving DecidableEq

/-- Ledger label a queue token is recorded under (measure.py lines
298-303): `"base"` becomes `"bf16"`, anything else is kept verbatim. -/
def labelOf (q : String) : String := if q = "base" then "bf16" else q

/-- Model directory a queue token resolves to (measure.py lines 298-303):
the base directory itself for `"base"`, otherwise `os.path.join(base, q)`. -/
def modelDirOf (base q : String) : String :=
  if q = "base" then base else pyJoin base q

/-- Embedding of one iteration of the `for q in quants` loop of
`run_measure` (measure.py lines 297-339): skip-done check against the `done`
set read at entry, directory existence check, collaborator calls, row
assembly, durable append. -/
def measureOne (c : Collab) (base : String) (dev : Nat) (skip : Bool)
    (done : List String) (q : String) (led : List MRow) : StepRes :=
  let dir := modelDirOf base q
  let label := labelOf q
  if skip && done.contains label then
    ⟨led, none, [], []⟩
  else if !(c.isDir dir) then
    ⟨led, some (.notFound dir), [], []⟩
  else if q = "base" then
    match c.pplLayer dir dev 100 with
    | .error e => ⟨led, some (.collab e), [], [.ppl dir dev 100]⟩
    | .ok p =>
      let row : MRow := ⟨"bf16", .str "", 0, p, c.sizeGib dir⟩
      ⟨led ++ [row], none, appendOps row, [.ppl dir dev 100]⟩
  else
    match c.modelDiff base dir dev 10 with
    | .error e => ⟨led, some (.collab e), [], [.diff base dir dev 10]⟩
    | .ok pr =>
      match c.pplLayer dir dev 100 with
      | .error e => ⟨led, some (.collab e), [], [.diff base dir dev 10, .ppl dir dev 100]⟩
      | .ok p =>
        let row : MRow := ⟨label, .num pr.1, pr.2, p, c.sizeGib dir⟩
        ⟨led ++ [row], none, appendOps row, [.diff base dir dev 10, .ppl dir dev 100]⟩

/-- The token loop of `run_measure` over a list of quant tokens: an
exception from any label aborts the loop (no later token is processed). -/
def runMeasureAux (c : Collab) (base : String) (dev : Nat) (skip : Bool)
    (done : List String) : List String → List MRow → StepRes
  | [], led => ⟨led, none, [], []⟩
  | q :: qs, led =>
    let s := measureOne c base dev skip done q led
    match s.err with
    | some e => ⟨s.ledger, some e, s.ops, s.calls⟩
    | none =>
      let rest := runMeasureAux c base dev skip done qs s.ledger
      ⟨rest.ledger, rest.err, s.ops ++ rest.ops, s.calls ++ rest.calls⟩

/-- Embedding of `run_measure` (measure.py lines 272-347) on an existing
ledger: the `done` set is read once from the ledger at entry when skip-done
is enabled, then the token loop runs. -/
def runMeasure (c : Collab) (base : String) (dev : Nat) (quants : List String)
    (skip : Bool) (led : List MRow) : StepRes :=
  runMeasureAux c base dev skip (if skip then doneSet led else []) quants led

/-- Case analysis of one `run_measure` loop iteration: the step either
skips, raises `FileNotFoundError`, propagates a collaborator exception, or
appends exactly one fully assembled row. -/
lemma measureOne_spec (c : Collab) (base : String) (dev : Nat) (skip : Bool)
    (done : List String) (q : String) (led : List MRow) :
    ((skip && done.contains (labelOf q)) = true ∧
      measureOne c base dev skip done q led = ⟨led, none, [], []⟩) ∨
    ((skip && done.contains (labelOf q)) = false ∧
      c.isDir (modelDirOf base q) = false ∧
      measureOne c base dev skip done q led =
        ⟨led, some (.notFound (modelDirOf base q)), [], []⟩) ∨
    ((skip && done.contains (labelOf q)) = false ∧
      c.isDir (modelDirOf base q) = true ∧ q = "base" ∧
      ((∃ e, c.pplLayer (modelDirOf base q) dev 100 = .error e ∧
          measureOne c base dev skip done q led =
            ⟨led, some (.collab e), [], [.ppl (modelDirOf base q) dev 100]⟩) ∨
        (∃ p, c.pplLayer (modelDirOf base q) dev 100 = .ok p ∧
          measureOne c base dev skip done q led =
            ⟨led ++ [⟨"bf16", .str "", 0, p, c.sizeGib (modelDirOf base q)⟩], none,
              appendOps ⟨"bf16", .str "", 0, p, c.sizeGib (modelDirOf base q)⟩,
              [.ppl (modelDirOf base q) dev 100]⟩))) ∨
    ((skip && done.contains (labelOf q)) = false ∧
      c.isDir (modelDirOf base q) = true ∧ q ≠ "base" ∧
      ((∃ e, c.modelDiff base (modelDirOf base q) dev 10 = .error e ∧
          measureOne c base dev skip done q led =
            ⟨led, some (.collab e), [], [.diff base (modelDirOf base q) dev 10]⟩) ∨
        (∃ pr, c.modelDiff base (modelDirOf base q) dev 10 = .ok pr ∧
          ((∃ e, c.pplLayer (modelDirOf base q) dev 100 = .error e ∧
              measureOne c base dev skip done q led =
                ⟨led, some (.collab e), [],
                  [.diff base (modelDirOf base q) dev 10,
                    .ppl (modelDirOf base q) dev 100]⟩) ∨
            (∃ p, c.pplLayer (modelDirOf base q) dev 100 = .ok p ∧
              measureOne c base dev skip done q led =
                ⟨led ++ [⟨q, .num pr.1, pr.2, p, c.sizeGib (modelDirOf base q)⟩], none,
                  appendOps ⟨q, .num pr.1, pr.2, p, c.sizeGib (modelDirOf base q)⟩,
                  [.diff base (modelDirOf base q) dev 10,
                    .ppl (modelDirOf base q) dev 100]⟩))))) := by
  by_cases h1 : (skip && done.contains (labelOf q)) = true
  · exact Or.inl ⟨h1, by unfold measureOne; rw [if_pos h1]⟩
  · rw [Bool.not_eq_true] at h1
    have h1n : ¬((skip && done.contains (labelOf q)) = true) := by rw [h1]; simp
    by_cases h2 : c.isDir (modelDirOf base q) = true
    · have h2n : ¬((!c.isDir (modelDirOf base q)) = true) := by rw [h2]; simp
      by_cases h3 : q = "base"
      · refine Or.inr (Or.inr (Or.inl ⟨h1, h2, h3, ?_⟩))
        subst h3
        cases hp : c.pplLayer (modelDirOf base "base") dev 100 with
        | error e =>
          refine Or.inl ⟨e, rfl, ?_⟩
          simp only [measureOne]
          rw [if_neg h1n, if_neg h2n, if_pos trivial, hp]
        | ok p =>
          refine Or.inr ⟨p, rfl, ?_⟩
          simp only [measureOne]
          rw [if_neg h1n, if_neg h2n, if_pos trivial, hp]
      · refine Or.inr (Or.inr (Or.inr ⟨h1, h2, h3, ?_⟩))
        have hlq : labelOf q = q := by unfold labelOf; rw [if_neg h3]
        cases hd : c.modelDiff base (modelDirOf base q) dev 10 with
        | error e =>
          refine Or.inl ⟨e, rfl, ?_⟩
          simp only [measureOne]
          rw [if_neg h1n, if_neg h2n, if_neg h3, hd]
        | ok pr =>
          refine Or.inr ⟨pr, rfl, ?_⟩
          cases hp : c.pplLayer (modelDirOf base q) dev 100 with
          | error e =>
            refine Or.inl ⟨e, rfl, ?_⟩
            simp only [measureOne]
            rw [if_neg h1n, if_neg h2n, if_neg h3, hd, hp]
          | ok p =>
            refine Or.inr ⟨p, rfl, ?_⟩
            simp only [measureOne]
            rw [if_neg h1n, if_neg h2n, if_neg h3, hd, hp, hlq]
    · rw [Bool.not_eq_true] at h2
      have h2y : (!c.isDir (modelDirOf base q)) = true := by rw [h2]; rfl
      refine Or.inr (Or.inl ⟨h1, h2, ?_⟩)
      simp only [measureOne]
      rw [if_neg h1n, if_pos h2y]

/-- C7: in `run_measure`, a row is appended to the ledger only after the
collaborator calls (`run_model_diff` and `run_ppl_layer`) returned
successfully; when a collaborator call raises, the ledger is unchanged and
no file operation is performed for that label, and the loop aborts with the
exception; every completed append performs write, flush, fsync (in that
order) before `append_csv_row` returns. -/
theorem append_only_after_collaborator_success
    (c : Collab) (base : String) (dev : Nat) (skip : Bool)
    (done : List String) (q : String) (led : List MRow) :
    (∀ e, (measureOne c base dev skip done q led).err = some e →
      (measureOne c base dev skip done q led).ledger = led ∧
      (measureOne c base dev skip done q led).ops = []) ∧
    ((measureOne c base dev skip done q led).ledger ≠ led →
      (measureOne c base dev skip done q led).err = none ∧
      ∃ row, (measureOne c base dev skip done q led).ledger = led ++ [row] ∧
        (measureOne c base dev skip done q led).ops = appendOps row ∧
        List.Sublist [FileOp.writeRow row, FileOp.flushF, FileOp.fsyncF] (appendOps row) ∧
        (∃ p, c.pplLayer (modelDirOf base q) dev 100 = .ok p) ∧
        (q ≠ "base" → ∃ pr, c.modelDiff base (modelDirOf base q) dev 10 = .ok pr)) ∧
    (∀ (qs : List String) (e : MErr),
      (measureOne c base dev skip done q led).err = some e →
      runMeasureAux c base dev skip done (q :: qs) led =
        ⟨led, some e, [], (measureOne c base dev skip done q led).calls⟩) := by
  have hsub : ∀ row : MRow,
      List.Sublist [FileOp.writeRow row, FileOp.flushF, FileOp.fsyncF] (appendOps row) := by
    intro row
    simp only [appendOps]
    apply List.Sublist.cons
    apply List.Sublist.cons₂
    apply List.Sublist.cons₂
    apply List.Sublist.cons₂
    exact List.nil_sublist _
  rcases measureOne_spec c base dev skip done q led with
    ⟨h1, hs⟩ | ⟨h1, h2, hs⟩ | ⟨h1, h2, h3, ⟨e0, hp, hs⟩ | ⟨p0, hp, hs⟩⟩ |
      ⟨h1, h2, h3, ⟨e0, hd, hs⟩ | ⟨pr0, hd, ⟨e0, hp, hs⟩ | ⟨p0, hp, hs⟩⟩⟩
  · refine ⟨?_, ?_, ?_⟩
    · intro e he; rw [hs] at he; simp at he
    · intro hl; rw [hs] at hl; exact absurd rfl hl
    · intro qs e he; rw [hs] at he; simp at he
  · refine ⟨?_, ?_, ?_⟩
    · intro e he; exact ⟨by rw [hs], by rw [hs]⟩
    · intro hl; rw [hs] at hl; exact absurd rfl hl
    · intro qs e he
      rw [hs] at he
      have he2 : MErr.notFound (modelDirOf base q) = e := by simpa using he
      subst he2
      simp only [runMeasureAux, hs]
  · refine ⟨?_, ?_, ?_⟩
    · intro e he; exact ⟨by rw [hs], by rw [hs]⟩
    · intro hl; rw [hs] at hl; exact absurd rfl hl
    · intro qs e he
      rw [hs] at he
      have he2 : MErr.collab e0 = e := by simpa using he
      subst he2
      simp only [runMeasureAux, hs]
  · refine ⟨?_, ?_, ?_⟩
    · intro e he; rw [hs] at he; simp at he
    · intro _
      refine ⟨by rw [hs], ⟨"bf16", .str "", 0, p0, c.sizeGib (modelDirOf base q)⟩,
        by rw [hs], by rw [hs], hsub _, ⟨p0, hp⟩, fun hq => absurd h3 hq⟩
    · intro qs e he; rw [hs] at he; simp at he
  · refine ⟨?_, ?_, ?_⟩
    · intro e he; exact ⟨by rw [hs], by rw [hs]⟩
    · intro hl; rw [hs] at hl; exact absurd rfl hl
    · intro qs e he
      rw [hs] at he
      have he2 : MErr.collab e0 = e := by simpa using he
      subst he2
      simp only [runMeasureAux, hs]
  · refine ⟨?_, ?_, ?_⟩
    · intro e he; exact ⟨by rw [hs], by rw [hs]⟩
    · intro hl; rw [hs] at hl; exact absurd rfl hl
    · intro qs e he
      rw [hs] at he
      have he2 : MErr.collab e0 = e := by simpa using he
      subst he2
      simp only [runMeasureAux, hs]
  · refine ⟨?_, ?_, ?_⟩
    · intro e he; rw [hs] at he; simp at he
    · intro _
      refine ⟨by rw [hs], ⟨q, .num pr0.1, pr0.2, p0, c.sizeGib (modelDirOf base q)⟩,
        by rw [hs], by rw [hs], hsub _, ⟨p0, hp⟩, fun _ => ⟨pr0, hd⟩⟩
    · intro qs e he; rw [hs] at he; simp at he

/-- C7 (witness): the append theorem applied to a concrete collaborator
whose `run_ppl_layer` raises: the ledger stays empty and no file operation
happens. -/
theorem append_only_after_collaborator_success_witness :
    (measureOne ⟨fun _ _ _ _ => .ok (7, 1), fun _ _ _ => .error "boom", fun _ => true, fun _ => 3⟩
        "/m" 0 true [] "2" []).err = some (.collab "boom") ∧
    (measureOne ⟨fun _ _ _ _ => .ok (7, 1), fun _ _ _ => .error "boom", fun _ => true, fun _ => 3⟩
        "/m" 0 true [] "2" []).ledger = [] ∧
    (measureOne ⟨fun _ _ _ _ => .ok (7, 1), fun _ _ _ => .error "boom", fun _ => true, fun _ => 3⟩
        "/m" 0 true [] "2" []).ops = [] := by
  have he : (measureOne ⟨fun _ _ _ _ => .ok (7, 1), fun _ _ _ => .error "boom",
      fun _ => true, fun _ => 3⟩ "/m" 0 true [] "2" []).err = some (.collab "boom") := by
    decide
  have h := append_only_after_collaborator_success
    ⟨fun _ _ _ _ => .ok (7, 1), fun _ _ _ => .error "boom", fun _ => true, fun _ => 3⟩
    "/m" 0 true [] "2" []
  exact ⟨he, (h.1 _ he).1, (h.1 _ he).2⟩

/-- C10: `run_measure` measures the token `"base"` against the base model
directory itself and records it under the label `"bf16"` with an empty
`"PPL r-10"` field and a `"K/L Div"` of 0.0; every other token t is measured
at `os.path.join(base_dir, t)` and recorded under the label t verbatim; a
non-skipped token whose resolved directory does not exist raises
`FileNotFoundError` without appending anything, and the loop aborts there. -/
theorem measure_label_dir_resolution
    (c : Collab) (base : String) (dev : Nat) (skip : Bool)
    (done : List String) (q : String) (led : List MRow) (qs : List String) :
    (q = "base" → ∀ p, (skip && done.contains "bf16") = false →
      c.isDir base = true → c.pplLayer base dev 100 = .ok p →
      measureOne c base dev skip done q led =
        ⟨led ++ [⟨"bf16", .str "", 0, p, c.sizeGib base⟩], none,
          appendOps ⟨"bf16", .str "", 0, p, c.sizeGib base⟩, [.ppl base dev 100]⟩) ∧
    (q ≠ "base" → ∀ pr p, (skip && done.contains q) = false →
      c.isDir (pyJoin base q) = true →
      c.modelDiff base (pyJoin base q) dev 10 = .ok pr →
      c.pplLayer (pyJoin base q) dev 100 = .ok p →
      measureOne c base dev skip done q led =
        ⟨led ++ [⟨q, .num pr.1, pr.2, p, c.sizeGib (pyJoin base q)⟩], none,
          appendOps ⟨q, .num pr.1, pr.2, p, c.sizeGib (pyJoin base q)⟩,
          [.diff base (pyJoin base q) dev 10, .ppl (pyJoin base q) dev 100]⟩) ∧
    ((skip && done.contains (labelOf q)) = false →
      c.isDir (modelDirOf base q) = false →
      measureOne c base dev skip done q led =
        ⟨led, some (.notFound (modelDirOf base q)), [], []⟩ ∧
      runMeasureAux c base dev skip done (q :: qs) led =
        ⟨led, some (.notFound (modelDirOf base q)), [], []⟩) := by
  refine ⟨?_, ?_, ?_⟩
  · intro h3 p h1 h2 hp
    subst h3
    have h1' : (skip && done.contains (labelOf "base")) = false := h1
    have h2' : c.isDir (modelDirOf base "base") = true := h2
    have hp' : c.pplLayer (modelDirOf base "base") dev 100 = .ok p := hp
    have h1n : ¬((skip && done.contains (labelOf "base")) = true) := by rw [h1']; simp
    have h2n : ¬((!c.isDir (modelDirOf base "base")) = true) := by rw [h2']; simp
    simp only [measureOne]
    rw [if_neg h1n, if_neg h2n, if_pos trivial, hp']
    rfl
  · intro h3 pr p h1 h2 hd hp
    have hlq : labelOf q = q := by unfold labelOf; rw [if_neg h3]
    have hdir : modelDirOf base q = pyJoin base q := by unfold modelDirOf; rw [if_neg h3]
    have h1' : (skip && done.contains (labelOf q)) = false := by rw [hlq]; exact h1
    have h2' : c.isDir (modelDirOf base q) = true := by rw [hdir]; exact h2
    have hd' : c.modelDiff base (modelDirOf base q) dev 10 = .ok pr := by rw [hdir]; exact hd
    have hp' : c.pplLayer (modelDirOf base q) dev 100 = .ok p := by rw [hdir]; exact hp
    have h1n : ¬((skip && done.contains (labelOf q)) = true) := by rw [h1']; simp
    have h2n : ¬((!c.isDir (modelDirOf base q)) = true) := by rw [h2']; simp
    simp only [measureOne]
    rw [if_neg h1n, if_neg h2n, if_neg h3, hd', hp', hlq, hdir]
  · intro h1 h2
    have h1n : ¬((skip && done.contains (labelOf q)) = true) := by rw [h1]; simp
    have h2y : (!c.isDir (modelDirOf base q)) = true := by rw [h2]; rfl
    have hs : measureOne c base dev skip done q led =
        ⟨led, some (.notFound (modelDirOf base q)), [], []⟩ := by
      simp only [measureOne]
      rw [if_neg h1n, if_pos h2y]
    refine ⟨hs, ?_⟩
    simp only [runMeasureAux, hs]

/-- C10 (witness): the resolution theorem applied to a concrete filesystem
with directories /m and /m/2: token 2 lands at /m/2 under label 2, token
base lands at /m under label bf16, token 5 raises. -/
theorem measure_label_dir_resolution_witness :
    ("2" : String) ≠ "base" ∧
    measureOne ⟨fun _ _ _ _ => .ok (7, 1), fun _ _ _ => .ok 9, fun d => d = "/m" || d = "/m/2",
        fun _ => 3⟩ "/m" 0 true [] "2" [] =
      ⟨[⟨"2", .num 7, 1, 9, 3⟩], none, appendOps ⟨"2", .num 7, 1, 9, 3⟩,
        [.diff "/m" "/m/2" 0 10, .ppl "/m/2" 0 100]⟩ ∧
    measureOne ⟨fun _ _ _ _ => .ok (7, 1), fun _ _ _ => .ok 9, fun d => d = "/m" || d = "/m/2",
        fun _ => 3⟩ "/m" 0 true [] "base" [] =
      ⟨[⟨"bf16", .str "", 0, 9, 3⟩], none, appendOps ⟨"bf16", .str "", 0, 9, 3⟩,
        [.ppl "/m" 0 100]⟩ ∧
    measureOne ⟨fun _ _ _ _ => .ok (7, 1), fun _ _ _ => .ok 9, fun d => d = "/m" || d = "/m/2",
        fun _ => 3⟩ "/m" 0 true [] "5" [] =
      ⟨[], some (.notFound "/m/5"), [], []⟩ := by
  refine ⟨by decide, ?_, ?_, ?_⟩
  · have h := (measure_label_dir_resolution
      ⟨fun _ _ _ _ => .ok (7, 1), fun _ _ _ => .ok 9, fun d => d = "/m" || d = "/m/2", fun _ => 3⟩
      "/m" 0 true [] "2" [] []).2.1 (by decide) (7, 1) 9 (by decide) (by decide) rfl rfl
    exact h.trans (by decide)
  · have h := (measure_label_dir_resolution
      ⟨fun _ _ _ _ => .ok (7, 1), fun _ _ _ => .ok 9, fun d => d = "/m" || d = "/m/2", fun _ => 3⟩
      "/m" 0 true [] "base" [] []).1 rfl 9 (by decide) (by decide) rfl
    exact h.trans (by decide)
  · have h := (measure_label_dir_resolution
      ⟨fun _ _ _ _ => .ok (7, 1), fun _ _ _ => .ok 9, fun d => d = "/m" || d = "/m/2", fun _ => 3⟩
      "/m" 0 true [] "5" [] []).2.2 (by decide) (by decide)
    exact h.1.trans (by decide)

/-! ### The worker loop `_worker_measure` and the stage protocol (repo.py) -/

/-- Parameter names accepted by `run_measure` in measure.py (lines 272-279). -/
def runMeasureParams : List String :=
  ["base_dir", "quants", "device", "csv_path", "skip_done", "exllamav3_root"]

/-- Keyword arguments of the `run_measure(...)` call inside `_worker_measure`
(repo.py lines 89-97). -/
def workerCallKeywords : List String :=
  ["base_dir", "quants", "device", "csv_path", "skip_done", "return_row", "ppl_rows"]

/-- First keyword of the worker call that the callee does not accept. -/
def unexpectedKwarg : Option String :=
  workerCallKeywords.find? (fun kw => !runMeasureParams.contains kw)

/-- The exception the Python call raises when a keyword argument is not in
the callee parameter list. -/
def tyErrMsg : String :=
  "TypeError: run_measure() got an unexpected keyword argument return_row"

/-- Embedding of the `run_measure(...)` call inside `_worker_measure`: a
call whose keyword arguments include one absent from the callee parameter
list raises `TypeError` before the callee body runs.  The `none` branch
(all keywords accepted) is unreachable for this call site — see
`workerInvoke_eq` — and `run_measure` implements no `return_row` behaviour
to embed there, so it yields no row. -/
def workerInvoke (item : String) (led : List MRow) : Except String (Option MRow) :=
  match unexpectedKwarg with
  | some kw => .error ("TypeError: run_measure() got an unexpected keyword argument " ++ kw)
  | none => .ok none

lemma unexpectedKwarg_eq : unexpectedKwarg = some "return_row" := by decide

lemma workerInvoke_eq (item : String) (led : List MRow) :
    workerInvoke item led = .error tyErrMsg := by
  unfold workerInvoke
  rw [unexpectedKwarg_eq]
  decide

/-- Events a worker sends on the results queue: its final `None` sentinel
(repo.py line 78), an error placeholder (line 104, whose weights field is
`item if item != "base" else "bf16"`, i.e. `labelOf item`), or a measured
row. -/
inductive WEvent
  | sentinel
  | errEvt (weights msg : String)
  | rowEvt (r : MRow)
  deriving DecidableEq

/-- Recognizer for the worker sentinel event. -/
def WEvent.isSentinel : WEvent → Bool
  | .sentinel => true
  | _ => false

/-- Embedding of one non-sentinel iteration of the `_worker_measure` loop
(repo.py lines 81-104): invoke `run_measure`, forward a returned row if any,
and on an exception put an error placeholder on the results queue.  The
shard ledger is only ever touched by the callee, which this call never
reaches. -/
def workerStep (item : String) (led : List MRow) : List MRow × List WEvent :=
  match workerInvoke item led with
  | .ok (some row) => (led, [.rowEvt row])
  | .ok none => (led, [])
  | .error e => (led, [.errEvt (labelOf item) e])

lemma workerStep_eq (item : String) (led : List MRow) :
    workerStep item led = (led, [.errEvt (labelOf item) tyErrMsg]) := by
  unfold workerStep
  rw [workerInvoke_eq]

/-- The full `_worker_measure` loop (repo.py lines 75-104) on the items one
worker dequeues: stop and emit the sentinel at the first `None`, otherwise
process the label and continue. -/
def workerRun : List (Option String) → List MRow → List MRow × List WEvent
  | [], led => (led, [])
  | none :: _, led => (led, [.sentinel])
  | some item :: rest, led =>
    let s := workerStep item led
    let t := workerRun rest s.1
    (t.1, s.2 ++ t.2)

/-- Embedding of `tasks_list = bpws + ["base"]` (repo.py line 222, after the
identity `bpws = [str(b) for b in bpws]`). -/
def tasksList (bpws : List String) : List String := bpws ++ ["base"]

/-- Full contents of the shared task queue as `run_measure_stage` fills it
(repo.py lines 224-229): every task once, then one `None` stop marker per
device slot. -/
def taskQueue (bpws : List String) (k : Nat) : List (Option String) :=
  (tasksList bpws).map some ++ List.replicate k none

/-! ### Claim C4: position of the baseline in the task list -/

/-- C4 (code evaluated at the failing input): with requested variants 2 and
3 the task list is enqueued as 2, 3, base — the baseline token is last, not
first, contradicting the claim and the comment above the build site. -/
theorem tasks_list_base_last :
    tasksList ["2", "3"] = ["2", "3", "base"] ∧
    (tasksList ["2", "3"]).head? ≠ some "base" := by
  decide

/-! ### Claim C2: worker behaviour on a failed measurement -/

/-- C2 (counterexample): when the measurement attempt for the label 3 fails,
the worker appends nothing to its shard ledger (the ledger stays empty) and
the label is therefore absent from the done set a skip-done rerun would
consult; the error record goes to the results queue only. -/
theorem worker_error_not_in_ledger_cex :
    workerStep "3" [] = ([], [.errEvt "3" tyErrMsg]) ∧
    "3" ∉ doneSet (workerStep "3" []).1 := by
  constructor
  · rw [workerStep_eq]
    rfl
  · rw [workerStep_eq]
    decide

/-- C2 (amended): for every label whose measurement attempt fails (which
under this call site is every label: the call itself raises `TypeError`),
the worker puts one error event carrying the mapped label and the error
message on the results queue and continues; the shard ledger is unchanged,
so a label not already in the ledger stays absent and would be measured
again, not skipped, by a later skip-done run. -/
theorem worker_error_event_only (item : String) (led : List MRow) :
    workerStep item led = (led, [.errEvt (labelOf item) tyErrMsg]) ∧
    (labelOf item ∉ doneSet led → labelOf item ∉ doneSet (workerStep item led).1) := by
  refine ⟨workerStep_eq item led, ?_⟩
  intro h2
  rw [workerStep_eq]
  exact h2

/-- C2 (witness): the amended worker theorem applied to the label 3 and an
empty ledger, discharging the absence hypothesis there. -/
theorem worker_error_event_only_witness :
    ("3" : String) ∉ doneSet [] ∧
    workerStep "3" [] = ([], [.errEvt "3" tyErrMsg]) ∧
    ("3" : String) ∉ doneSet (workerStep "3" []).1 :=
  ⟨by decide, (worker_error_event_only "3" []).1,
    (worker_error_event_only "3" []).2 (by decide)⟩

/-! ### Claim C6: idempotent resume -/

/-- C6 (code evaluated at the failing input): with a shard ledger already
holding rows for bf16 and 2 and the same task list re-enqueued, the second
run leaves the ledger unchanged but emits one error outcome event per label
(the worker call raises `TypeError: unexpected keyword argument return_row`
before the skip-done check of measure.py lines 305-307 can run) — not zero
outcome events as the claim requires. -/
theorem resume_emits_error_events :
    (workerRun [some "2", some "base", none]
        [⟨"bf16", .str "", 0, 9, 3⟩, ⟨"2", .num 7, 1, 9, 3⟩]).1 =
      [⟨"bf16", .str "", 0, 9, 3⟩, ⟨"2", .num 7, 1, 9, 3⟩] ∧
    (workerRun [some "2", some "base", none]
        [⟨"bf16", .str "", 0, 9, 3⟩, ⟨"2", .num 7, 1, 9, 3⟩]).2 =
      [.errEvt "2" tyErrMsg, .errEvt "bf16" tyErrMsg, .sentinel] ∧
    ((workerRun [some "2", some "base", none]
        [⟨"bf16", .str "", 0, 9, 3⟩, ⟨"2", .num 7, 1, 9, 3⟩]).2.filter
      (fun e => !e.isSentinel)).length = 2 := by
  refine ⟨?_, ?_, ?_⟩ <;> decide

/-! ### Claim C8: the stop-marker and sentinel protocol -/

/-- A complete consumption of the task queue by k workers: `assign i` names
the worker that dequeues queue position i (positions are consumed in FIFO
order).  Validity captures the worker loop discipline: a worker consumes
nothing after its stop marker, so an earlier position of a worker that also
consumes a later one cannot be `None`. -/
def ValidRun (q : List (Option String)) (k : Nat) (assign : Fin q.length → Fin k) : Prop :=
  ∀ i j : Fin q.length, i < j → assign i = assign j → q.get i ≠ none

instance (q : List (Option String)) (k : Nat) (assign : Fin q.length → Fin k) :
    Decidable (ValidRun q k assign) :=
  inferInstanceAs (Decidable (∀ i j : Fin q.length, i < j → assign i = assign j → q.get i ≠ none))

/-- The subsequence of queue items one worker dequeues, in queue order. -/
def assignedItems (q : List (Option String)) {k : Nat}
    (assign : Fin q.length → Fin k) (w : Fin k) : List (Option String) :=
  ((List.finRange q.length).filter (fun i => decide (assign i = w))).map q.get

/-- The result listener loop of `run_measure_stage` (repo.py lines 251-268):
starting from `active_workers = k`, consume results, decrement on each
`None` sentinel, and exit when the counter reaches zero.  Returns the
unconsumed remainder of the results stream, or `none` when the loop would
block forever on an empty queue. -/
def coordRemaining : Nat → List WEvent → Option (List WEvent)
  | 0, s => some s
  | _ + 1, [] => none
  | n + 1, e :: rest => coordRemaining (if e.isSentinel then n else n + 1) rest

lemma taskQueue_length (bpws : List String) (k : Nat) :
    (taskQueue bpws k).length = (tasksList bpws).length + k := by
  simp [taskQueue]

lemma append_replicate_getElem_none_iff (L : List String) (k i : Nat)
    (hi : i < (L.map some ++ List.replicate k (none : Option String)).length) :
    (L.map some ++ List.replicate k (none : Option String))[i] = none ↔ L.length ≤ i := by
  by_cases h : i < (L.map some).length
  · have hlt : i < L.length := by simpa using h
    rw [List.getElem_append_left h]
    rw [List.getElem_map]
    constructor
    · intro hc; cases hc
    · intro hc; omega
  · have hge : (L.map some).length ≤ i := Nat.le_of_not_lt h
    rw [List.getElem_append_right hge]
    rw [List.getElem_replicate]
    simp only [List.length_map] at hge
    constructor
    · intro _; exact hge
    · intro _; rfl

lemma taskQueue_getElem_none_iff (bpws : List String) (k : Nat) (i : Nat)
    (hi : i < (taskQueue bpws k).length) :
    (taskQueue bpws k)[i] = none ↔ (tasksList bpws).length ≤ i :=
  append_replicate_getElem_none_iff (tasksList bpws) k i hi

lemma coordRemaining_cons (n : Nat) (e : WEvent) (rest : List WEvent) :
    coordRemaining (n + 1) (e :: rest) =
      coordRemaining (if e.isSentinel then n else n + 1) rest := rfl

lemma nonePos_lt (bpws : List String) (k : Nat) (t : Fin k) :
    (tasksList bpws).length + t.val < (taskQueue bpws k).length := by
  rw [taskQueue_length]
  omega

def nonePos (bpws : List String) (k : Nat) (t : Fin k) : Fin (taskQueue bpws k).length :=
  ⟨(tasksList bpws).length + t.val, nonePos_lt bpws k t⟩

lemma get_nonePos (bpws : List String) (k : Nat) (t : Fin k) :
    (taskQueue bpws k).get (nonePos bpws k t) = none := by
  rw [List.get_eq_getElem]
  exact (taskQueue_getElem_none_iff bpws k _ _).mpr (Nat.le_add_right _ _)

lemma assign_nonePos_inj (bpws : List String) (k : Nat)
    (assign : Fin (taskQueue bpws k).length → Fin k)
    (hv : ValidRun (taskQueue bpws k) k assign) :
    Function.Injective (fun t => assign (nonePos bpws k t)) := by
  intro t1 t2 he
  simp only at he
  by_contra hne
  rcases Nat.lt_or_ge t1.val t2.val with h | h
  · have hlt : nonePos bpws k t1 < nonePos bpws k t2 := by
      simp only [nonePos, Fin.mk_lt_mk]
      omega
    exact hv _ _ hlt he (get_nonePos bpws k t1)
  · rcases Nat.lt_or_ge t2.val t1.val with h2 | h2
    · have hlt : nonePos bpws k t2 < nonePos bpws k t1 := by
        simp only [nonePos, Fin.mk_lt_mk]
        omega
      exact hv _ _ hlt he.symm (get_nonePos bpws k t2)
    · exact hne (Fin.ext (Nat.le_antisymm h2 h))

lemma assignedItems_split (bpws : List String) (k : Nat)
    (assign : Fin (taskQueue bpws k).length → Fin k)
    (hv : ValidRun (taskQueue bpws k) k assign) (w : Fin k) :
    ∃ pre, assignedItems (taskQueue bpws k) assign w = pre ++ [none] ∧
      ∀ x ∈ pre, x ≠ none := by
  have hpair : (((List.finRange (taskQueue bpws k).length).filter
      (fun i => decide (assign i = w)))).Pairwise (· < ·) :=
    List.Pairwise.sublist (List.filter_sublist _) (List.pairwise_lt_finRange _)
  obtain ⟨t, ht⟩ :=
    (Finite.injective_iff_surjective.mp (assign_nonePos_inj bpws k assign hv)) w
  simp only at ht
  have hmem : nonePos bpws k t ∈ (List.finRange (taskQueue bpws k).length).filter
      (fun i => decide (assign i = w)) :=
    List.mem_filter.mpr ⟨List.mem_finRange _, by simp [ht]⟩
  obtain ⟨xs, ys, hxy⟩ := List.append_of_mem hmem
  rw [hxy] at hpair
  have hpa := List.pairwise_append.mp hpair
  have hys : ys = [] := by
    rcases ys with _ | ⟨j, ys2⟩
    · rfl
    · exfalso
      have hij : nonePos bpws k t < j :=
        List.rel_of_pairwise_cons hpa.2.1 (List.mem_cons_self _ _)
      have hjP : j ∈ (List.finRange (taskQueue bpws k).length).filter
          (fun i => decide (assign i = w)) := by
        rw [hxy]
        exact List.mem_append.mpr (Or.inr (List.mem_cons_of_mem _ (List.mem_cons_self _ _)))
      have hjw : assign j = w := by
        have := (List.mem_filter.mp hjP).2
        simpa using this
      exact hv _ _ hij (by rw [ht, hjw]) (get_nonePos bpws k t)
  refine ⟨xs.map (taskQueue bpws k).get, ?_, ?_⟩
  · unfold assignedItems
    rw [hxy, hys, List.map_append]
    rw [show List.map (taskQueue bpws k).get [nonePos bpws k t] =
      [(taskQueue bpws k).get (nonePos bpws k t)] from rfl]
    rw [get_nonePos]
  · intro x hx
    rcases List.mem_map.mp hx with ⟨i, hi, rfl⟩
    have hiP : i ∈ (List.finRange (taskQueue bpws k).length).filter
        (fun i => decide (assign i = w)) := by
      rw [hxy]
      exact List.mem_append.mpr (Or.inl hi)
    have hiw : assign i = w := by
      have := (List.mem_filter.mp hiP).2
      simpa using this
    have hlt : i < nonePos bpws k t :=
      hpa.2.2 i hi (nonePos bpws k t) (List.mem_cons_self _ _)
    exact hv i (nonePos bpws k t) hlt (by rw [hiw, ht])

lemma workerRun_sentinel_count (pre : List (Option String)) :
    ∀ led : List MRow, (∀ x ∈ pre, x ≠ none) →
      ((workerRun (pre ++ [none]) led).2.countP (fun e => e.isSentinel)) = 1 := by
  induction pre with
  | nil =>
    intro led _
    rfl
  | cons x pre ih =>
    intro led hx
    have hxn : x ≠ none := hx x (List.mem_cons_self _ _)
    rcases x with _ | item
    · exact absurd rfl hxn
    · show ((workerRun (some item :: (pre ++ [none])) led).2.countP (fun e => e.isSentinel)) = 1
      simp only [workerRun, workerStep_eq]
      rw [List.countP_append]
      rw [ih led (fun y hy => hx y (List.mem_cons_of_mem _ hy))]
      rfl

lemma coordRemaining_complete :
    ∀ (s : List WEvent) (n : Nat),
      s.countP (fun e => e.isSentinel) = n →
      (s = [] ∨ ∃ pre, s = pre ++ [WEvent.sentinel]) →
      coordRemaining n s = some [] := by
  intro s
  induction s with
  | nil =>
    intro n hn _
    rw [show n = 0 from by simpa using hn.symm]
    rfl
  | cons e rest ih =>
    intro n hn hlast
    rcases hlast with h | ⟨pre, hpre⟩
    · cases h
    have hrest : rest = [] ∨ ∃ pre2, rest = pre2 ++ [WEvent.sentinel] := by
      rcases pre with _ | ⟨p0, pre2⟩
      · simp only [List.nil_append] at hpre
        have : rest = [] := (List.cons_eq_cons.mp hpre).2
        exact Or.inl this
      · rcases List.cons_eq_cons.mp hpre with ⟨_, hr⟩
        exact Or.inr ⟨pre2, hr⟩
    rw [List.countP_cons] at hn
    cases he : e.isSentinel with
    | true =>
      have hn2 : rest.countP (fun e => e.isSentinel) + 1 = n := by
        rw [he] at hn
        simpa using hn
      rcases hrest with hr | hr
      · subst hr
        have hone : n = 1 := by simpa using hn2.symm
        subst hone
        rw [show (1 : Nat) = 0 + 1 from rfl, coordRemaining_cons, he]
        rfl
      · obtain ⟨m, hm⟩ : ∃ m, n = m + 1 := ⟨_, hn2.symm⟩
        subst hm
        show coordRemaining (if e.isSentinel then m else m + 1) rest = some []
        rw [he]
        simp only [if_true]
        exact ih m (by omega) (Or.inr hr)
    | false =>
      have hn2 : rest.countP (fun e => e.isSentinel) = n := by
        rw [he] at hn
        simpa using hn
      have hrne : rest ≠ [] := by
        intro hr
        subst hr
        rcases pre with _ | ⟨p0, pre2⟩
        · have he2 : e = WEvent.sentinel := by simpa using hpre
          rw [he2] at he
          cases he
        · rw [List.cons_append] at hpre
          rcases List.cons_eq_cons.mp hpre with ⟨_, hr2⟩
          exact absurd hr2.symm (by simp)
      rcases hrest with hr | hr
      · exact absurd hr hrne
      · have hpos : 0 < rest.countP (fun e => e.isSentinel) := by
          rcases hr with ⟨pre2, hr2⟩
          rw [hr2]
          rw [List.countP_append]
          have h1 : (([WEvent.sentinel] : List WEvent).countP (fun e => e.isSentinel)) = 1 := rfl
          omega
        obtain ⟨m, hm⟩ : ∃ m, n = m + 1 := by
          rcases Nat.exists_eq_succ_of_ne_zero (by omega : n ≠ 0) with ⟨m, hm⟩
          exact ⟨m, hm⟩
        subst hm
        show coordRemaining (if e.isSentinel then m else m + 1) rest = some []
        rw [he]
        rw [if_neg (by simp)]
        exact ih (m + 1) hn2 (Or.inr hr)

lemma sum_map_one {α : Type} (l : List α) : (l.map (fun _ => (1 : Nat))).sum = l.length := by
  induction l with
  | nil => rfl
  | cons a l ih =>
    rw [List.map_cons, List.sum_cons, ih, List.length_cons]
    omega

/-- The stage enqueues exactly one stop marker per device slot. -/
lemma taskQueue_countP_none (bpws : List String) (k : Nat) :
    (taskQueue bpws k).countP (fun x => x.isNone) = k := by
  unfold taskQueue
  rw [List.countP_append]
  have h1 : ((tasksList bpws).map some).countP (fun x => x.isNone) = 0 := by
    rw [List.countP_eq_zero]
    intro a ha
    rcases List.mem_map.mp ha with ⟨b, _, rfl⟩
    simp
  have h2 : ∀ n : Nat, (List.replicate n (none : Option String)).countP (fun x => x.isNone) = n := by
    intro n
    induction n with
    | zero => rfl
    | succ m ih =>
      rw [List.replicate_succ, List.countP_cons, ih]
      simp
  rw [h1, h2]
  omega

/-- C8: with k worker slots, exactly k stop markers are enqueued; in every
valid complete consumption of the queue, each worker dequeues exactly one
stop marker, as its last item, and emits exactly one sentinel; and on any
results stream that interleaves the worker emissions (hence is a
permutation of them and ends with the final sentinel of the last worker to
finish), the coordinator receive loop exits exactly after observing the
k-th sentinel, consuming the whole stream. -/
theorem stop_marker_protocol (bpws : List String) (k : Nat)
    (assign : Fin (taskQueue bpws k).length → Fin k)
    (leds : Fin k → List MRow)
    (stream : List WEvent)
    (hv : ValidRun (taskQueue bpws k) k assign)
    (hperm : List.Perm stream (((List.finRange k).map
      (fun w => (workerRun (assignedItems (taskQueue bpws k) assign w) (leds w)).2)).join))
    (hlast : stream = [] ∨ ∃ pre, stream = pre ++ [WEvent.sentinel]) :
    (taskQueue bpws k).countP (fun x => x.isNone) = k ∧
    (∀ w : Fin k, ∃ pre, assignedItems (taskQueue bpws k) assign w = pre ++ [none] ∧
      (∀ x ∈ pre, x ≠ none) ∧
      ((workerRun (assignedItems (taskQueue bpws k) assign w) (leds w)).2.countP
        (fun e => e.isSentinel)) = 1) ∧
    stream.countP (fun e => e.isSentinel) = k ∧
    coordRemaining k stream = some [] := by
  have hcount1 : ∀ w : Fin k,
      ((workerRun (assignedItems (taskQueue bpws k) assign w) (leds w)).2.countP
        (fun e => e.isSentinel)) = 1 := by
    intro w
    obtain ⟨pre, hsplit, hpre⟩ := assignedItems_split bpws k assign hv w
    rw [hsplit]
    exact workerRun_sentinel_count pre (leds w) hpre
  have hstream : stream.countP (fun e => e.isSentinel) = k := by
    rw [hperm.countP_eq]
    rw [List.countP_join]
    have hmaps : (((List.finRange k).map
        (fun w => (workerRun (assignedItems (taskQueue bpws k) assign w) (leds w)).2)).map
          (List.countP (fun e => e.isSentinel))) = (List.finRange k).map (fun _ => (1 : Nat)) := by
      rw [List.map_map]
      refine List.map_congr_left ?_
      intro w _
      simpa using hcount1 w
    rw [hmaps, sum_map_one, List.length_finRange]
  refine ⟨taskQueue_countP_none bpws k, ?_, hstream, coordRemaining_complete stream k hstream hlast⟩
  intro w
  obtain ⟨pre, hsplit, hpre⟩ := assignedItems_split bpws k assign hv w
  exact ⟨pre, hsplit, hpre, hcount1 w⟩

/-- C8 (witness): the protocol theorem applied to two slots and one variant
label: worker 0 takes both labels and the first stop marker, worker 1 takes
the second stop marker, and the coordinator consumes the four-event results
stream exactly. -/
theorem stop_marker_protocol_witness :
    ValidRun (taskQueue ["2"] 2) 2
      (fun i => if i.val ≤ 2 then (0 : Fin 2) else 1) ∧
    (taskQueue ["2"] 2).countP (fun x => x.isNone) = 2 ∧
    (([WEvent.errEvt "2" tyErrMsg, WEvent.errEvt "bf16" tyErrMsg,
        WEvent.sentinel, WEvent.sentinel] : List WEvent).countP
      (fun e => e.isSentinel)) = 2 ∧
    coordRemaining 2 [WEvent.errEvt "2" tyErrMsg, WEvent.errEvt "bf16" tyErrMsg,
      WEvent.sentinel, WEvent.sentinel] = some [] := by
  have hv : ValidRun (taskQueue ["2"] 2) 2
      (fun i => if i.val ≤ 2 then (0 : Fin 2) else 1) := by decide
  have h := stop_marker_protocol ["2"] 2
    (fun i => if i.val ≤ 2 then (0 : Fin 2) else 1) (fun _ => [])
    [WEvent.errEvt "2" tyErrMsg, WEvent.errEvt "bf16" tyErrMsg,
      WEvent.sentinel, WEvent.sentinel] hv (by decide)
    (Or.inr ⟨[WEvent.errEvt "2" tyErrMsg, WEvent.errEvt "bf16" tyErrMsg,
      WEvent.sentinel], rfl⟩)
  exact ⟨hv, h.1, h.2.2.1, h.2.2.2⟩
